import Mathlib

/-!
Verification development for `contrib/worker-visualization/log_to_html.py`:
a shallow embedding of the trace-reconstruction and rendering pipeline
(message classifier, timeline aligner, cell renderer, table renderer,
topology grapher, and the `main` driver), together with theorems checking
the natural-language specification against it.

JSON objects are embedded as association lists (JSON object keys are unique
and ordered, matching Python 3.7+ dict insertion order).  Python string
comparison and `int()` are embedded as reducible functions over `List Char`.
-/

/-- A message record from a block log: fields `from`, `timestamp`, `type`,
`payload` of `block_analysis.json`. -/
structure Message where
  from_ : String
  timestamp : Int
  type : String
  payload : String
deriving Repr, DecidableEq

/-- One worker's entry in a block log: fields `code`, `predecessors`,
`successors`, `messages`; the latter three may be absent (`none`). -/
structure BlockInfo where
  code : List String
  predecessors : Option (List String)
  successors : Option (List String)
  messages : Option (List Message)
deriving Repr, DecidableEq

/-- A block log: a JSON object mapping worker identifiers to their entries,
in insertion order. -/
abbrev BlockLogs := List (String × BlockInfo)

/-- Python dict lookup `d[k]` on an association list (`none` models the
`KeyError` case). -/
def dictGet {κ α : Type} [DecidableEq κ] : List (κ × α) → κ → Option α
  | [], _ => none
  | p :: rest, key => if p.1 = key then some p.2 else dictGet rest key

/-- Line 69: `"\n".join([x for x in infos["code"] if x])`. -/
def joinCode (code : List String) : String :=
  String.intercalate "\n" (code.filter (fun x => x ≠ ""))

/-- Lines 47-67 of `html_for_message`: from the message type, compute
`(senders, receivers, arrow)`, with `predecessors`/`successors` defaulting
to `["none"]` when the field is absent. -/
def classify (m : Message) (infos : BlockInfo) : List String × List String × String :=
  let predecessors := infos.predecessors.getD ["none"]
  let successors := infos.successors.getD ["none"]
  if m.type = "BLOCK_POSTCONDITION" then (predecessors, successors, "&darr;")
  else if m.type = "ERROR_CONDITION" then (successors, predecessors, "&uarr;")
  else if m.type = "ERROR_CONDITION_UNREACHABLE" then (successors, ["all"], "&uarr;")
  else if m.type = "FOUND_RESULT" then ([m.from_], ["all"], "-")
  else (["all"], ["all"], "-")

/-- Lines 76-78: `sender = "self"; if senders: sender = ", ".join(senders)`. -/
def sender_string (senders : List String) : String :=
  if senders = [] then "self" else String.intercalate ", " senders

/-- Lines 71-83: the cell markup built for a populated message, with the
sender text passed in (`html_for_message` passes
`sender_string (classify m infos).1`). -/
def cellBody (m : Message) (infos : BlockInfo) (sender : String) : String :=
  let c := classify m infos
  let arrow := c.2.2
  let receiver := String.intercalate ", " c.2.1
  let direction := m.type
  let result := if m.payload = "" then "no contents available" else m.payload
  let code := joinCode infos.code
  s!"<div title=\"{code}\"><p><span>{arrow}</span><span>React to message from <strong>{sender}</strong>:</span></p><p>Calculated new {direction} message for <strong>{receiver}</strong></p><textarea>{result}</textarea></div>"

/-- The two return shapes of `html_for_message`: the empty-message branch
returns the 2-tuple `(str(div), "")` (line 43), the populated branch a
single string (line 85). -/
inductive HtmlRet where
  | pair (div : String) (second : String)
  | single (html : String)
deriving Repr, DecidableEq

/-- `html_for_message(message, block_log)` (lines 37-85).  `message = none`
models a falsy (empty/absent) message; `none` as result models the
`KeyError` raised by `block_log[message["from"]]` on an unknown worker. -/
def html_for_message (message : Option Message) (block_log : BlockLogs) : Option HtmlRet :=
  match message with
  | none => some (HtmlRet.pair "<div></div>" "")
  | some m =>
    match dictGet block_log m.from_ with
    | none => none
    | some infos => some (HtmlRet.single (cellBody m infos (sender_string (classify m infos).1)))

/-- One timeline-matrix row: one slot per worker column, `none` for the
`""` filler of `[""] * len(block_logs)` (line 96). -/
abbrev Row := List (Option Message)

/-- The `index_dict` shape: worker identifier to column index. -/
abbrev Idx := List (String × Nat)

/-- Digit-string accumulator for the embedding of Python `int`. -/
def digitsVal : List Char → Nat → Option Nat
  | [], acc => some acc
  | c :: rest, acc =>
    if c.isDigit then digitsVal rest (acc * 10 + (c.toNat - 48)) else none

/-- Python `int(s)` on a string: `none` models `ValueError` (e.g. `int("")`
for a one-character worker identifier). -/
def str_to_int (s : String) : Option Int :=
  match s.data with
  | [] => none
  | c :: rest =>
    if c = '-' then
      match rest with
      | [] => none
      | _ :: _ => (digitsVal rest 0).map (fun n => -(n : Int))
    else (digitsVal (c :: rest) 0).map (fun n => (n : Int))

/-- `int(x[1::])`: the numeric suffix of a worker identifier (line 91/155). -/
def suffix_int (s : String) : Option Int :=
  str_to_int (s.drop 1)

/-- Python lexicographic string comparison (by code point) on the character
lists of two strings. -/
def strLe : List Char → List Char → Bool
  | [], _ => true
  | _ :: _, [] => false
  | c :: a, d :: b => if c = d then strLe a b else decide (c < d)

/-- Line 91: sort key comparison for `sorted(block_logs.keys(), key=lambda
x: int(x[1::]))` (guarded: `sortKeys` only sorts when every suffix parses). -/
def key_le (a b : String) : Prop :=
  (suffix_int a).getD 0 ≤ (suffix_int b).getD 0

instance : DecidableRel key_le := fun a b =>
  inferInstanceAs (Decidable ((suffix_int a).getD 0 ≤ (suffix_int b).getD 0))

/-- Line 155: sort key comparison for `sorted(all_messages, key=lambda
entry: (entry["timestamp"], entry["from"][1::]))` — lexicographic on the
pair (integer timestamp, identifier-suffix string). -/
def message_le (a b : Message) : Prop :=
  a.timestamp < b.timestamp ∨
    (a.timestamp = b.timestamp ∧ strLe (a.from_.drop 1).data (b.from_.drop 1).data = true)

instance : DecidableRel message_le := fun a b =>
  inferInstanceAs (Decidable (a.timestamp < b.timestamp ∨
    (a.timestamp = b.timestamp ∧ strLe (a.from_.drop 1).data (b.from_.drop 1).data = true)))

/-- Line 91: `sorted_keys = sorted(block_logs.keys(), key=lambda x:
int(x[1::]))`; `none` models the `ValueError` from `int` on a key with a
non-numeric suffix.  (Python `sorted` is the stable sort by the key;
insertion sort is stable, so it computes the same list.) -/
def sortKeys (keys : List String) : Option (List String) :=
  if keys.all (fun k => (suffix_int k).isSome) then
    some (List.insertionSort key_le keys)
  else none

/-- Lines 92-94: `index_dict[key] = position of key in sorted_keys`. -/
def index_dict (sorted_keys : List String) : Idx :=
  sorted_keys.enum.map (fun p => (p.2, p.1))

/-- Line 96: `timestamp_to_message.setdefault(key, [""] * width)[i] =
message` — update the row of `key` in place if present, else append a fresh
all-empty row at the end (dict insertion order). -/
def insertMessage : List (Int × Row) → Int → Nat → Nat → Message → List (Int × Row)
  | [], key, width, i, m => [(key, (List.replicate width (none : Option Message)).set i (some m))]
  | (k, r) :: rest, key, width, i, m =>
    if k = key then (k, r.set i (some m)) :: rest
    else (k, r) :: insertMessage rest key width i m

/-- Lines 95-97: the timeline-aligner loop.  One message at a time, compute
the relative timestamp and place the message at its worker's column;
`none` models the `KeyError` from `index_dict[message["from"]]`. -/
def buildRows (idx : Idx) (width : Nat) (first : Int) :
    List Message → List (Int × Row) → Option (List (Int × Row))
  | [], rows => some rows
  | m :: rest, rows =>
    match dictGet idx m.from_ with
    | none => none
    | some i => buildRows idx width first rest (insertMessage rows (m.timestamp - first) width i m)

/-- The last message of a list that falls in slot (relative time `t`,
column `i`) — the occupant `buildRows` leaves there (last write wins). -/
def lastMatch (idx : Idx) (first : Int) : List Message → Int → Nat → Option Message
  | [], _, _ => none
  | m :: rest, t, i =>
    match lastMatch idx first rest t i with
    | some m' => some m'
    | none =>
      if m.timestamp - first = t ∧ dictGet idx m.from_ = some i then some m else none

/-- Replay of all updates a message list applies to the row of relative
time `t` (proof device for characterizing `buildRows`). -/
def applyAll (idx : Idx) (first : Int) (msgs : List Message) (t : Int) (r : Row) : Row :=
  msgs.foldl
    (fun r m =>
      if m.timestamp - first = t then
        match dictGet idx m.from_ with
        | some i => r.set i (some m)
        | none => r
      else r)
    r

/-- Lines 107-111: the style-class table keyed by message type. -/
def type_to_klass : List (String × String) :=
  [("BLOCK_POSTCONDITION", "precondition"),
   ("ERROR_CONDITION", "postcondition"),
   ("ERROR_CONDITION_UNREACHABLE", "postcondition")]

/-- Lines 116-121: render one matrix slot as a table cell. -/
def renderCell (block_logs : BlockLogs) (slot : Option Message) : Option String :=
  match slot with
  | none => some "<td></td>"
  | some msg =>
    let klass := (dictGet type_to_klass msg.type).getD "normal"
    match html_for_message (some msg) block_logs with
    | some (HtmlRet.single s) => some s!"<td class=\"{klass}\">{s}</td>"
    | _ => none

/-- Lines 112-121: render one data row: the relative timestamp cell, then
one cell per worker column. -/
def renderRow (block_logs : BlockLogs) (t : Int) (slots : Row) : Option String :=
  match slots.mapM (renderCell block_logs) with
  | none => none
  | some cells =>
    let body := String.join cells
    some s!"<tr><td>{t}</td>{body}</tr>"

/-- Line 91 applied to a block log: its suffix-sorted worker keys. -/
def sorted_worker_keys (block_logs : BlockLogs) : Option (List String) :=
  sortKeys (block_logs.map Prod.fst)

/-- The timeline matrix of `html_dict_to_html_table` (lines 89-97), in
dict insertion order: first timestamp from the head message, columns from
the suffix-sorted worker keys, then the aligner loop. -/
def table_rows (all_messages : List Message) (block_logs : BlockLogs) :
    Option (List (Int × Row)) :=
  match all_messages.head? with
  | none => none
  | some firstMsg =>
    match sorted_worker_keys block_logs with
    | none => none
    | some sorted_keys =>
      buildRows (index_dict sorted_keys) block_logs.length firstMsg.timestamp all_messages []

/-- `html_dict_to_html_table(all_messages, block_logs)` (lines 88-123):
`none` models an uncaught exception (empty message list, unparsable worker
key, or a message from an unknown worker). -/
def html_dict_to_html_table (all_messages : List Message) (block_logs : BlockLogs) :
    Option String :=
  match sorted_worker_keys block_logs with
  | none => none
  | some sorted_keys =>
    match table_rows all_messages block_logs with
    | none => none
    | some rows =>
      let headers := "time" :: sorted_keys
      let headerCells := String.join (headers.map (fun k => s!"<th>{k}</th>"))
      match rows.mapM (fun p => renderRow block_logs p.1 p.2) with
      | none => none
      | some rowStrings =>
        let body := String.join rowStrings
        some s!"<table class=\"worker\"><tr class=\"header_row\">{headerCells}</tr>{body}</table>"

/-- The directed graph `networkx.DiGraph` built by `visualize`: node names
in insertion order, node labels, and directed edges in insertion order
(both deduplicated, as in `networkx`). -/
structure Graph where
  nodes : List String
  labels : List (String × String)
  edges : List (String × String)
deriving Repr, DecidableEq

/-- Add a node name if not already present (`networkx` node set). -/
def addNodeName (ns : List String) (k : String) : List String :=
  if k ∈ ns then ns else ns ++ [k]

/-- Set a node's label attribute, inserting or overwriting. -/
def setLabel : List (String × String) → String → String → List (String × String)
  | [], k, l => [(k, l)]
  | (k0, l0) :: rest, k, l =>
    if k0 = k then (k0, l) :: rest else (k0, l0) :: setLabel rest k l

/-- Line 132: `g.add_node(key, shape="box", label=label)`. -/
def add_node (g : Graph) (k l : String) : Graph :=
  { nodes := addNodeName g.nodes k, labels := setLabel g.labels k l, edges := g.edges }

/-- Line 136: `g.add_edge(key, successor)` — adds missing endpoint nodes
(without labels) and the edge if not already present. -/
def add_edge (g : Graph) (u v : String) : Graph :=
  { nodes := addNodeName (addNodeName g.nodes u) v,
    labels := g.labels,
    edges := if (u, v) ∈ g.edges then g.edges else g.edges ++ [(u, v)] }

/-- Lines 130-131: `label = key + ":\n" + code if code else key` with
`code` the joined non-empty code lines. -/
def node_label (key : String) (info : BlockInfo) : String :=
  let code := joinCode info.code
  if code = "" then key else key ++ ":\n" ++ code

/-- Lines 126-136 of `visualize`: the graph construction from the summary
block log (file `blocks.json`) — one labeled node per worker, then one
edge per declared (worker, successor) pair; a worker without a
`successors` field contributes none. -/
def visualize (block_logs : BlockLogs) : Graph :=
  let g := block_logs.foldl (fun g p => add_node g p.1 (node_label p.1 p.2)) ⟨[], [], []⟩
  block_logs.foldl
    (fun g p => (p.2.successors.getD []).foldl (fun g s => add_edge g p.1 s) g) g

/-- Lines 149-152 of `main`: concatenate the `messages` lists of all
workers of the block-analysis log, in key order. -/
def collect_messages (block_logs : BlockLogs) : List Message :=
  block_logs.foldl (fun acc p => acc ++ p.2.messages.getD []) []

/-- Line 155: `sorted(all_messages, key=lambda entry: (entry["timestamp"],
entry["from"][1::]))` — the stable sort by that key. -/
def sort_messages (l : List Message) : List Message :=
  List.insertionSort message_le l

/-- Outcome of a `main` run: early return with no report (line 153-154),
a written report plus topology graph, or an uncaught exception. -/
inductive MainResult where
  | noReport
  | report (html : String) (graph : Graph)
  | error
deriving Repr

/-- `main` (lines 144-164) on the two parsed input files: the
block-analysis log (`block_analysis.json`) and the summary log
(`blocks.json`, used only by `visualize`). -/
def main_run (block_logs : BlockLogs) (summary : BlockLogs) : MainResult :=
  let all_messages := collect_messages block_logs
  if all_messages.isEmpty then MainResult.noReport
  else
    match html_dict_to_html_table (sort_messages all_messages) block_logs with
    | none => MainResult.error
    | some html => MainResult.report html (visualize summary)

/-- Line 167-168: `sys.exit(main())` — `main` returns `None` on every
normal path, so the process exit status is 0 unless an exception escapes. -/
def exit_code : MainResult → Nat
  | MainResult.error => 1
  | _ => 0

/-- Scenario input (spec §8): worker `B0` with successor `B1` and one
`BLOCK_POSTCONDITION` message at timestamp 100. -/
def c3_msg : Message :=
  { from_ := "B0", timestamp := 100, type := "BLOCK_POSTCONDITION", payload := "p" }

/-- Scenario worker `B0`: successors `[B1]`, no predecessors declared. -/
def c3_b0_info : BlockInfo :=
  { code := [], predecessors := none, successors := some ["B1"], messages := some [c3_msg] }

/-- Scenario worker `B1`: predecessors `[B0]`, no successors declared. -/
def c3_b1_info : BlockInfo :=
  { code := [], predecessors := some ["B0"], successors := none, messages := none }

/-- Scenario block log with workers `B0` and `B1`. -/
def c3_logs : BlockLogs :=
  [("B0", c3_b0_info), ("B1", c3_b1_info)]

/-- A `BLOCK_POSTCONDITION` message from worker `B1`, which declares no
`successors` field. -/
def c2_msg : Message :=
  { from_ := "B1", timestamp := 100, type := "BLOCK_POSTCONDITION", payload := "p" }

/-- A worker entry whose `predecessors` field is present but empty. -/
def c10_info : BlockInfo :=
  { code := [], predecessors := some [], successors := some ["B1"], messages := none }

/-- A `BLOCK_POSTCONDITION` message from a worker with an empty declared
predecessor list, so its computed sender set is empty. -/
def c10_msg : Message :=
  { from_ := "B0", timestamp := 100, type := "BLOCK_POSTCONDITION", payload := "p" }

/-- Block log for the empty-sender-set scenario. -/
def c10_logs : BlockLogs :=
  [("B0", c10_info), ("B1", c3_b1_info)]

/-- A message from worker `B0` at timestamp 100. -/
def c1_m1 : Message :=
  { from_ := "B0", timestamp := 100, type := "BLOCK_POSTCONDITION", payload := "a" }

/-- A message from worker `B1` at the later timestamp 105. -/
def c1_m2 : Message :=
  { from_ := "B1", timestamp := 105, type := "FOUND_RESULT", payload := "b" }

/-- A block-analysis log with the single worker `B0` and one message. -/
def c5_analysis : BlockLogs :=
  [("B0", { code := [], predecessors := none, successors := none,
            messages := some [c1_m1] })]

/-- A summary log with the two distinct workers `B0` and `B1`. -/
def c5_summary : BlockLogs :=
  [("B0", c3_b0_info), ("B1", c3_b1_info)]

/-- A message whose `from` worker `B9` is not a key of `c3_logs`. -/
def c6_msg : Message :=
  { from_ := "B9", timestamp := 100, type := "FOUND_RESULT", payload := "p" }

/-- A single worker that declares neither successors nor messages. -/
def c8_single_info : BlockInfo :=
  { code := [], predecessors := none, successors := none, messages := none }

/-- A block log with one worker and no declared successors. -/
def c8_single : BlockLogs :=
  [("B0", c8_single_info)]

theorem dictGet_mem {κ α : Type} [DecidableEq κ] (l : List (κ × α)) (k : κ) (v : α)
    (h : dictGet l k = some v) : (k, v) ∈ l := by
  induction l with
  | nil => cases h
  | cons p rest ih =>
    unfold dictGet at h
    split at h
    · next hp =>
      injection h with h2
      have hpv : p = (k, v) := by
        obtain ⟨a, b⟩ := p
        simp only at hp h2
        rw [hp, h2]
      rw [hpv]
      exact List.mem_cons_self _ _
    · exact List.mem_cons_of_mem _ (ih h)

theorem dictGet_eq_some_of_mem {κ α : Type} [DecidableEq κ] (l : List (κ × α)) (k : κ) (v : α)
    (hm : (k, v) ∈ l) (hn : (l.map Prod.fst).Nodup) : dictGet l k = some v := by
  induction l with
  | nil => cases hm
  | cons p rest ih =>
    rcases List.mem_cons.mp hm with hpv | hm'
    · unfold dictGet
      rw [← hpv]
      simp
    · unfold dictGet
      have hk : p.1 ≠ k := by
        intro hk
        have hmem : k ∈ rest.map Prod.fst := List.mem_map.mpr ⟨(k, v), hm', rfl⟩
        rw [List.map_cons, hk] at hn
        exact (List.nodup_cons.mp hn).1 hmem
      rw [if_neg hk]
      exact ih hm' (by rw [List.map_cons] at hn; exact (List.nodup_cons.mp hn).2)

theorem dictGet_none_of_not_mem {κ α : Type} [DecidableEq κ] (l : List (κ × α)) (k : κ)
    (h : k ∉ l.map Prod.fst) : dictGet l k = none := by
  induction l with
  | nil => rfl
  | cons p rest ih =>
    unfold dictGet
    rw [List.map_cons] at h
    have hk : p.1 ≠ k := by
      intro hk
      exact h (hk ▸ List.mem_cons_self p.1 (rest.map Prod.fst))
    rw [if_neg hk]
    exact ih (fun hm => h (List.mem_cons_of_mem _ hm))

/-- C2 (amended): for every BLOCK_POSTCONDITION message, classification
yields receivers = the sending worker's declared successors, defaulting to
the literal set containing "none" (not "all") when the worker declares no
successors field; senders = the declared predecessors (with the same
"none" default); and the downward arrow glyph. -/
theorem c2_block_postcondition_rule (m : Message) (infos : BlockInfo)
    (h : m.type = "BLOCK_POSTCONDITION") :
    classify m infos =
      (infos.predecessors.getD ["none"], infos.successors.getD ["none"], "&darr;") := by
  simp [classify, h]

/-- C2 counterexample: worker `B1` of the scenario log declares no
successors; classifying its BLOCK_POSTCONDITION message yields receivers
`["none"]`, not the claimed `["all"]`. -/
theorem c2_counterexample :
    (classify c2_msg c3_b1_info).2.1 = ["none"] ∧ (["none"] : List String) ≠ ["all"] :=
  ⟨rfl, by decide⟩

/-- C2 witness: the amended classification rule evaluated at `c2_msg`. -/
theorem c2_witness :
    c2_msg.type = "BLOCK_POSTCONDITION" ∧
      classify c2_msg c3_b1_info =
        (c3_b1_info.predecessors.getD ["none"], c3_b1_info.successors.getD ["none"],
          "&darr;") :=
  ⟨rfl, c2_block_postcondition_rule c2_msg c3_b1_info rfl⟩

/-- C9: classifying/rendering an empty (absent) matrix slot returns an
empty render — a 2-tuple of an empty div string and an empty string — and
does not fail; a populated message instead yields a single string. -/
theorem c9_empty_message_render (block_log : BlockLogs) :
    html_for_message none block_log = some (HtmlRet.pair "<div></div>" "") ∧
      ∀ m r, html_for_message (some m) block_log = some r →
        ∃ s, r = HtmlRet.single s := by
  refine ⟨rfl, ?_⟩
  intro m r h
  simp only [html_for_message] at h
  split at h
  · cases h
  · injection h with h2
    exact ⟨_, h2.symm⟩

/-- C9 witness: the empty-slot render evaluated on the scenario log. -/
theorem c9_witness :
    html_for_message none c3_logs = some (HtmlRet.pair "<div></div>" "") :=
  (c9_empty_message_render c3_logs).1

/-- C10: a populated message whose computed sender set is empty is rendered
with the literal sender text "self" — neither "all" nor "none". -/
theorem c10_empty_senders_self (m : Message) (block_log : BlockLogs) (infos : BlockInfo)
    (hl : dictGet block_log m.from_ = some infos)
    (hs : (classify m infos).1 = []) :
    sender_string (classify m infos).1 = "self" ∧
      ("self" : String) ≠ "all" ∧ ("self" : String) ≠ "none" ∧
      html_for_message (some m) block_log =
        some (HtmlRet.single (cellBody m infos "self")) := by
  refine ⟨by rw [hs]; rfl, by decide, by decide, ?_⟩
  simp only [html_for_message, hl, hs]
  rfl

/-- C10 witness: worker `B0` of `c10_logs` declares an empty predecessor
list, so its BLOCK_POSTCONDITION message has an empty sender set. -/
theorem c10_witness :
    dictGet c10_logs c10_msg.from_ = some c10_info ∧
      (classify c10_msg c10_info).1 = [] ∧
      sender_string (classify c10_msg c10_info).1 = "self" :=
  ⟨rfl, rfl, (c10_empty_senders_self c10_msg c10_logs c10_info rfl rfl).1⟩

/-- C3 counterexample: in the spec scenario the `B0` cell renders the
sender text "none" (worker `B0` declares no predecessors), not "B0" as the
claim states. -/
theorem c3_counterexample :
    sender_string (classify c3_msg c3_b0_info).1 = "none" ∧ ("none" : String) ≠ "B0" :=
  ⟨rfl, by decide⟩

/-- C3 (amended): for the scenario (workers `B0` with successor `B1`, `B1`
with predecessor `B0`, one BLOCK_POSTCONDITION message from `B0` at
timestamp 100) the table has one row at relative time 0 whose `B0` cell
renders "react to message from none / produced BLOCK_POSTCONDITION for B1"
and whose `B1` cell is empty, and the topology graph has exactly the one
edge `B0 → B1`. -/
theorem c3_scenario :
    collect_messages c3_logs = [c3_msg] ∧
    sort_messages [c3_msg] = [c3_msg] ∧
    table_rows [c3_msg] c3_logs = some [(0, [some c3_msg, none])] ∧
    classify c3_msg c3_b0_info = (["none"], ["B1"], "&darr;") ∧
    sender_string (classify c3_msg c3_b0_info).1 = "none" ∧
    String.intercalate ", " (classify c3_msg c3_b0_info).2.1 = "B1" ∧
    html_for_message (some c3_msg) c3_logs =
      some (HtmlRet.single (cellBody c3_msg c3_b0_info "none")) ∧
    (visualize c3_logs).edges = [("B0", "B1")] :=
  ⟨rfl, rfl, rfl, rfl, rfl, rfl, rfl, rfl⟩

theorem collect_foldl_acc (block_logs : BlockLogs) :
    ∀ acc : List Message, (∀ p ∈ block_logs, p.2.messages.getD [] = []) →
      block_logs.foldl (fun acc p => acc ++ p.2.messages.getD []) acc = acc := by
  induction block_logs with
  | nil => intro acc _; rfl
  | cons p rest ih =>
    intro acc h
    simp only [List.foldl_cons]
    rw [h p (List.mem_cons_self _ _), List.append_nil]
    exact ih acc (fun q hq => h q (List.mem_cons_of_mem _ hq))

/-- C7: when no worker of the block-analysis log has any messages, `main`
returns before rendering — no report, no graph — and the process exit
status is 0. -/
theorem c7_empty_log (block_logs summary : BlockLogs)
    (h : ∀ p ∈ block_logs, p.2.messages.getD [] = []) :
    main_run block_logs summary = MainResult.noReport ∧
      exit_code (main_run block_logs summary) = 0 := by
  have hc : collect_messages block_logs = [] := collect_foldl_acc block_logs [] h
  have h1 : main_run block_logs summary = MainResult.noReport := by
    unfold main_run
    rw [hc]
    rfl
  exact ⟨h1, by rw [h1]; rfl⟩

/-- C7 witness: a one-worker log with no messages. -/
theorem c7_witness :
    (∀ p ∈ c8_single, p.2.messages.getD [] = []) ∧
      main_run c8_single c8_single = MainResult.noReport :=
  ⟨by decide, (c7_empty_log c8_single c8_single (by decide)).1⟩

/-- C5 counterexample: the table's columns come from the block-analysis
log, not the summary log: with a one-worker analysis log and a two-worker
summary log, the table has 1 data column while the summary has 2 distinct
workers. -/
theorem c5_counterexample :
    sorted_worker_keys c5_analysis = some ["B0"] ∧
    (c5_summary.map Prod.fst).Nodup ∧
    (c5_summary.map Prod.fst).length = 2 ∧
    (["B0"] : List String).length ≠ (c5_summary.map Prod.fst).length :=
  ⟨rfl, by decide, rfl, by decide⟩

/-- C5 (amended): the rendered table has exactly one data column per
distinct worker identifier of the block-analysis file (not the summary
file), ordered non-decreasingly by numeric suffix. -/
theorem c5_columns (bl : BlockLogs) (sk : List String)
    (hn : (bl.map Prod.fst).Nodup) (hs : sorted_worker_keys bl = some sk) :
    sk.Perm (bl.map Prod.fst) ∧ sk.Nodup ∧ sk.length = (bl.map Prod.fst).length ∧
      sk.Pairwise key_le := by
  unfold sorted_worker_keys sortKeys at hs
  split at hs
  · injection hs with hsk
    subst hsk
    have hp : (List.insertionSort key_le (bl.map Prod.fst)).Perm (bl.map Prod.fst) :=
      List.perm_insertionSort key_le _
    refine ⟨hp, hp.nodup_iff.mpr hn, hp.length_eq, ?_⟩
    haveI : IsTotal String key_le := ⟨fun a b => Int.le_total _ _⟩
    haveI : IsTrans String key_le := ⟨fun a b c hab hbc => le_trans hab hbc⟩
    exact List.sorted_insertionSort key_le _
  · cases hs

/-- C5 witness: the amended column property on the scenario log. -/
theorem c5_witness :
    (c3_logs.map Prod.fst).Nodup ∧ sorted_worker_keys c3_logs = some ["B0", "B1"] ∧
      (["B0", "B1"] : List String).Perm (c3_logs.map Prod.fst) :=
  ⟨by decide, rfl, (c5_columns c3_logs ["B0", "B1"] (by decide) rfl).1⟩

theorem mem_edges_add_edge (g : Graph) (u v : String) (x : String × String) :
    x ∈ (add_edge g u v).edges ↔ x ∈ g.edges ∨ x = (u, v) := by
  simp only [add_edge]
  split
  · next h =>
    constructor
    · exact fun hx => Or.inl hx
    · rintro (hx | rfl)
      · exact hx
      · exact h
  · simp [List.mem_append]

theorem mem_edges_foldl_add_edge (k : String) :
    ∀ (succs : List String) (g : Graph) (x : String × String),
      (x ∈ (succs.foldl (fun g s => add_edge g k s) g).edges ↔
        x ∈ g.edges ∨ ∃ s ∈ succs, x = (k, s)) := by
  intro succs
  induction succs with
  | nil => intro g x; simp
  | cons s rest ih =>
    intro g x
    simp only [List.foldl_cons]
    rw [ih, mem_edges_add_edge]
    constructor
    · rintro ((hx | rfl) | ⟨s', hs', rfl⟩)
      · exact Or.inl hx
      · exact Or.inr ⟨s, List.mem_cons_self _ _, rfl⟩
      · exact Or.inr ⟨s', List.mem_cons_of_mem _ hs', rfl⟩
    · rintro (hx | ⟨s', hs', rfl⟩)
      · exact Or.inl (Or.inl hx)
      · rcases List.mem_cons.mp hs' with rfl | hs''
        · exact Or.inl (Or.inr rfl)
        · exact Or.inr ⟨s', hs'', rfl⟩

theorem mem_edges_edge_fold :
    ∀ (bl : BlockLogs) (g : Graph) (x : String × String),
      (x ∈ (bl.foldl (fun g p => (p.2.successors.getD []).foldl
          (fun g s => add_edge g p.1 s) g) g).edges ↔
        x ∈ g.edges ∨ ∃ p ∈ bl, ∃ s ∈ p.2.successors.getD [], x = (p.1, s)) := by
  intro bl
  induction bl with
  | nil => intro g x; simp
  | cons p rest ih =>
    intro g x
    simp only [List.foldl_cons]
    rw [ih, mem_edges_foldl_add_edge]
    constructor
    · rintro ((hx | ⟨s, hs, rfl⟩) | ⟨q, hq, s, hs, rfl⟩)
      · exact Or.inl hx
      · exact Or.inr ⟨p, List.mem_cons_self _ _, s, hs, rfl⟩
      · exact Or.inr ⟨q, List.mem_cons_of_mem _ hq, s, hs, rfl⟩
    · rintro (hx | ⟨q, hq, s, hs, rfl⟩)
      · exact Or.inl (Or.inl hx)
      · rcases List.mem_cons.mp hq with rfl | hq'
        · exact Or.inl (Or.inr ⟨s, hs, rfl⟩)
        · exact Or.inr ⟨q, hq', s, hs, rfl⟩

theorem nodup_edges_add_edge (g : Graph) (u v : String) (h : g.edges.Nodup) :
    (add_edge g u v).edges.Nodup := by
  simp only [add_edge]
  split
  · exact h
  · next hne =>
    rw [← List.concat_eq_append]
    exact h.concat hne

theorem nodup_edges_foldl_add_edge (k : String) :
    ∀ (succs : List String) (g : Graph), g.edges.Nodup →
      ((succs.foldl (fun g s => add_edge g k s) g).edges).Nodup := by
  intro succs
  induction succs with
  | nil => intro g h; exact h
  | cons s rest ih => intro g h; exact ih _ (nodup_edges_add_edge g k s h)

theorem nodup_edges_edge_fold :
    ∀ (bl : BlockLogs) (g : Graph), g.edges.Nodup →
      ((bl.foldl (fun g p => (p.2.successors.getD []).foldl
          (fun g s => add_edge g p.1 s) g) g).edges).Nodup := by
  intro bl
  induction bl with
  | nil => intro g h; exact h
  | cons p rest ih => intro g h; exact ih _ (nodup_edges_foldl_add_edge p.1 _ g h)

theorem setLabel_of_not_mem (ls : List (String × String)) (k l : String)
    (h : k ∉ ls.map Prod.fst) : setLabel ls k l = ls ++ [(k, l)] := by
  induction ls with
  | nil => rfl
  | cons p rest ih =>
    obtain ⟨k0, l0⟩ := p
    rw [List.map_cons] at h
    have hk : k0 ≠ k := fun hk => h (hk ▸ List.mem_cons_self _ _)
    unfold setLabel
    rw [if_neg hk, ih (fun hm => h (List.mem_cons_of_mem _ hm))]
    rfl

theorem labels_foldl_add_edge (k : String) :
    ∀ (succs : List String) (g : Graph),
      (succs.foldl (fun g s => add_edge g k s) g).labels = g.labels := by
  intro succs
  induction succs with
  | nil => intro g; rfl
  | cons s rest ih => intro g; exact ih _

theorem labels_edge_fold :
    ∀ (bl : BlockLogs) (g : Graph),
      (bl.foldl (fun g p => (p.2.successors.getD []).foldl
          (fun g s => add_edge g p.1 s) g) g).labels = g.labels := by
  intro bl
  induction bl with
  | nil => intro g; rfl
  | cons p rest ih =>
    intro g
    simp only [List.foldl_cons]
    rw [ih, labels_foldl_add_edge]

theorem labels_fold_add_node :
    ∀ (bl : BlockLogs) (g : Graph),
      (∀ p ∈ bl, p.1 ∉ g.labels.map Prod.fst) →
      (bl.map Prod.fst).Nodup →
      (bl.foldl (fun g p => add_node g p.1 (node_label p.1 p.2)) g).labels =
        g.labels ++ bl.map (fun p => (p.1, node_label p.1 p.2)) := by
  intro bl
  induction bl with
  | nil => intro g _ _; simp
  | cons p rest ih =>
    intro g hab hn
    rw [List.map_cons] at hn
    have hstep : (add_node g p.1 (node_label p.1 p.2)).labels =
        g.labels ++ [(p.1, node_label p.1 p.2)] := by
      simp only [add_node]
      exact setLabel_of_not_mem _ _ _ (hab p (List.mem_cons_self _ _))
    simp only [List.foldl_cons]
    rw [ih (add_node g p.1 (node_label p.1 p.2))
        (by
          intro q hq
          rw [hstep, List.map_append, List.map_cons]
          intro hmem
          rcases List.mem_append.mp hmem with h1 | h2
          · exact hab q (List.mem_cons_of_mem _ hq) h1
          · have hq1 : q.1 ∈ rest.map Prod.fst := List.mem_map.mpr ⟨q, hq, rfl⟩
            have : q.1 = p.1 := by
              rcases List.mem_cons.mp h2 with h3 | h3
              · exact h3
              · cases h3
            exact (List.nodup_cons.mp hn).1 (this ▸ hq1)
          )
        (List.nodup_cons.mp hn).2]
    rw [hstep, List.append_assoc]
    rfl

theorem mem_addNodeName (ns : List String) (k a : String) (h : a ∈ ns) :
    a ∈ addNodeName ns k := by
  unfold addNodeName
  split
  · exact h
  · exact List.mem_append_left _ h

theorem self_mem_addNodeName (ns : List String) (k : String) : k ∈ addNodeName ns k := by
  unfold addNodeName
  split
  · next h => exact h
  · exact List.mem_append_right _ (by simp)

theorem mem_nodes_foldl_add_edge (k : String) :
    ∀ (succs : List String) (g : Graph) (a : String), a ∈ g.nodes →
      a ∈ (succs.foldl (fun g s => add_edge g k s) g).nodes := by
  intro succs
  induction succs with
  | nil => intro g a h; exact h
  | cons s rest ih =>
    intro g a h
    exact ih _ a (mem_addNodeName _ _ _ (mem_addNodeName _ _ _ h))

theorem mem_nodes_edge_fold :
    ∀ (bl : BlockLogs) (g : Graph) (a : String), a ∈ g.nodes →
      a ∈ (bl.foldl (fun g p => (p.2.successors.getD []).foldl
          (fun g s => add_edge g p.1 s) g) g).nodes := by
  intro bl
  induction bl with
  | nil => intro g a h; exact h
  | cons p rest ih =>
    intro g a h
    exact ih _ a (mem_nodes_foldl_add_edge p.1 _ g a h)

theorem mem_nodes_node_fold_mono :
    ∀ (bl : BlockLogs) (g : Graph) (a : String), a ∈ g.nodes →
      a ∈ (bl.foldl (fun g p => add_node g p.1 (node_label p.1 p.2)) g).nodes := by
  intro bl
  induction bl with
  | nil => intro g a h; exact h
  | cons p rest ih =>
    intro g a h
    exact ih _ a (mem_addNodeName _ _ _ h)

theorem mem_nodes_node_fold :
    ∀ (bl : BlockLogs) (g : Graph) (p : String × BlockInfo), p ∈ bl →
      p.1 ∈ (bl.foldl (fun g p => add_node g p.1 (node_label p.1 p.2)) g).nodes := by
  intro bl
  induction bl with
  | nil => intro g p h; cases h
  | cons q rest ih =>
    intro g p h
    rcases List.mem_cons.mp h with rfl | h'
    · simp only [List.foldl_cons]
      exact mem_nodes_node_fold_mono rest _ p.1 (self_mem_addNodeName _ _)
    · exact ih _ p h'

/-- C8: the topology graph has one labeled node per worker — the label is
the identifier followed by its joined non-empty code lines, or the bare
identifier when there are none — one directed edge per declared
(worker, successor) pair and no others, no duplicate edges, no outgoing
edges for a worker without a `successors` field, and the one-worker
no-successor log yields one node and zero edges. -/
theorem c8_topology_graph (bl : BlockLogs) (hn : (bl.map Prod.fst).Nodup) :
    (visualize bl).labels = bl.map (fun p => (p.1, node_label p.1 p.2)) ∧
    (∀ p ∈ bl, p.1 ∈ (visualize bl).nodes) ∧
    (visualize bl).edges.Nodup ∧
    (∀ u v, ((u, v) ∈ (visualize bl).edges ↔
      ∃ p ∈ bl, p.1 = u ∧ v ∈ p.2.successors.getD [])) ∧
    (∀ p ∈ bl, p.2.successors = none → ∀ v, (p.1, v) ∉ (visualize bl).edges) ∧
    (visualize c8_single).nodes = ["B0"] ∧
    (visualize c8_single).labels = [("B0", "B0")] ∧
    (visualize c8_single).edges = ([] : List (String × String)) := by
  have hlabels : (visualize bl).labels = bl.map (fun p => (p.1, node_label p.1 p.2)) := by
    simp only [visualize]
    rw [labels_edge_fold, labels_fold_add_node bl ⟨[], [], []⟩ (by intro p _ h; cases h) hn]
    rfl
  have hedges0 : (bl.foldl (fun g p => add_node g p.1 (node_label p.1 p.2))
      (⟨[], [], []⟩ : Graph)).edges = [] := by
    have : ∀ (l : BlockLogs) (g : Graph),
        (l.foldl (fun g p => add_node g p.1 (node_label p.1 p.2)) g).edges = g.edges := by
      intro l
      induction l with
      | nil => intro g; rfl
      | cons q rest ih => intro g; exact ih _
    exact this bl _
  have hiff : ∀ u v, ((u, v) ∈ (visualize bl).edges ↔
      ∃ p ∈ bl, p.1 = u ∧ v ∈ p.2.successors.getD []) := by
    intro u v
    simp only [visualize]
    rw [mem_edges_edge_fold bl _ (u, v), hedges0]
    constructor
    · rintro (h | ⟨p, hp, s, hs, he⟩)
      · cases h
      · injection he with he1 he2
        exact ⟨p, hp, he1.symm, he2 ▸ hs⟩
    · rintro ⟨p, hp, rfl, hv⟩
      exact Or.inr ⟨p, hp, v, hv, rfl⟩
  refine ⟨hlabels, ?_, ?_, hiff, ?_, rfl, rfl, rfl⟩
  · intro p hp
    simp only [visualize]
    exact mem_nodes_edge_fold bl _ p.1 (mem_nodes_node_fold bl _ p hp)
  · simp only [visualize]
    exact nodup_edges_edge_fold bl _ (by rw [hedges0]; exact List.nodup_nil)
  · intro p hp hnone v hmem
    obtain ⟨q, hq, hq1, hv⟩ := (hiff p.1 v).mp hmem
    have hqv : dictGet bl q.1 = some q.2 := dictGet_eq_some_of_mem bl q.1 q.2 hq hn
    have hpv : dictGet bl p.1 = some p.2 := dictGet_eq_some_of_mem bl p.1 p.2 hp hn
    rw [hq1, hpv] at hqv
    injection hqv with hq2
    rw [← hq2, hnone] at hv
    cases hv

/-- C8 witness: the node-and-edge characterization evaluated on the
scenario log. -/
theorem c8_witness :
    (c3_logs.map Prod.fst).Nodup ∧
      (visualize c3_logs).labels = c3_logs.map (fun p => (p.1, node_label p.1 p.2)) :=
  ⟨by decide, (c8_topology_graph c3_logs (by decide)).1⟩

theorem buildRows_lookup_isSome (idx : Idx) (width : Nat) (first : Int) :
    ∀ (msgs : List Message) (rows0 rows : List (Int × Row)),
      buildRows idx width first msgs rows0 = some rows →
      ∀ m ∈ msgs, (dictGet idx m.from_).isSome := by
  intro msgs
  induction msgs with
  | nil => intro rows0 rows _ m hm; cases hm
  | cons m0 rest ih =>
    intro rows0 rows h m hm
    cases hdg : dictGet idx m0.from_ with
    | none =>
      simp only [buildRows, hdg] at h
      exact Option.noConfusion h
    | some i =>
      simp only [buildRows, hdg] at h
      rcases List.mem_cons.mp hm with rfl | hm'
      · rw [hdg]; rfl
      · exact ih _ _ h m hm'

theorem dictGet_insertMessage (rows : List (Int × Row)) (key : Int) (width i : Nat)
    (m : Message) (t : Int) :
    dictGet (insertMessage rows key width i m) t =
      if t = key then
        some (((dictGet rows key).getD (List.replicate width none)).set i (some m))
      else dictGet rows t := by
  induction rows with
  | nil =>
    by_cases ht : t = key
    · subst ht
      simp [insertMessage, dictGet]
    · have ht' : ¬key = t := fun hx => ht hx.symm
      simp [insertMessage, dictGet, ht, ht']
  | cons p rest ih =>
    obtain ⟨k0, r0⟩ := p
    by_cases hk : k0 = key
    · subst hk
      by_cases ht : t = k0
      · subst ht
        simp [insertMessage, dictGet]
      · have ht' : ¬k0 = t := fun hx => ht hx.symm
        simp [insertMessage, dictGet, ht, ht']
    · by_cases ht : t = k0
      · subst ht
        simp [insertMessage, dictGet, hk]
      · have hk0t : ¬k0 = t := fun hx => ht hx.symm
        simp only [insertMessage, if_neg hk, dictGet, if_neg hk0t]
        rw [ih]

theorem keys_insertMessage (rows : List (Int × Row)) (key : Int) (width i : Nat) (m : Message) :
    (insertMessage rows key width i m).map Prod.fst =
      if key ∈ rows.map Prod.fst then rows.map Prod.fst
      else rows.map Prod.fst ++ [key] := by
  induction rows with
  | nil => simp [insertMessage]
  | cons p rest ih =>
    obtain ⟨k0, r0⟩ := p
    by_cases hk : k0 = key
    · subst hk
      simp [insertMessage]
    · simp only [insertMessage, if_neg hk, List.map_cons]
      rw [ih]
      have hmem : (key ∈ k0 :: rest.map Prod.fst) ↔ key ∈ rest.map Prod.fst := by
        simp [List.mem_cons, Ne.symm hk]
      by_cases hin : key ∈ rest.map Prod.fst
      · rw [if_pos hin, if_pos (hmem.mpr hin)]
      · rw [if_neg hin, if_neg (fun hx => hin (hmem.mp hx))]
        rfl

theorem nodup_keys_insertMessage (rows : List (Int × Row)) (key : Int) (width i : Nat)
    (m : Message) (hn : (rows.map Prod.fst).Nodup) :
    ((insertMessage rows key width i m).map Prod.fst).Nodup := by
  rw [keys_insertMessage]
  split
  · exact hn
  · next hnot => rw [← List.concat_eq_append]; exact hn.concat hnot

theorem buildRows_nodup_keys (idx : Idx) (width : Nat) (first : Int) :
    ∀ (msgs : List Message) (rows0 rows : List (Int × Row)),
      buildRows idx width first msgs rows0 = some rows →
      (rows0.map Prod.fst).Nodup → (rows.map Prod.fst).Nodup := by
  intro msgs
  induction msgs with
  | nil => intro rows0 rows h hn; cases h; exact hn
  | cons m0 rest ih =>
    intro rows0 rows h hn
    cases hdg : dictGet idx m0.from_ with
    | none =>
      simp only [buildRows, hdg] at h
      exact Option.noConfusion h
    | some i =>
      simp only [buildRows, hdg] at h
      exact ih _ _ h (nodup_keys_insertMessage rows0 _ width i m0 hn)

theorem buildRows_dictGet (idx : Idx) (width : Nat) (first : Int) :
    ∀ (msgs : List Message) (rows0 rows : List (Int × Row)),
      buildRows idx width first msgs rows0 = some rows →
      ∀ t, dictGet rows t =
        match dictGet rows0 t with
        | some r0 => some (applyAll idx first msgs t r0)
        | none =>
          if msgs.any (fun m => decide (m.timestamp - first = t)) then
            some (applyAll idx first msgs t (List.replicate width none))
          else none := by
  intro msgs
  induction msgs with
  | nil =>
    intro rows0 rows h t
    cases h
    cases hr : dictGet rows0 t <;> simp [applyAll, hr]
  | cons m0 rest ih =>
    intro rows0 rows h t
    cases hdg : dictGet idx m0.from_ with
    | none =>
      simp only [buildRows, hdg] at h
      exact Option.noConfusion h
    | some i =>
      simp only [buildRows, hdg] at h
      have hstep := ih _ _ h t
      rw [dictGet_insertMessage] at hstep
      by_cases ht : t = m0.timestamp - first
      · rw [if_pos ht] at hstep
        rw [← ht] at hstep
        have hstep2 : dictGet rows t = some (applyAll idx first rest t
            (((dictGet rows0 t).getD (List.replicate width none)).set i (some m0))) := hstep
        rw [hstep2]
        have hc : m0.timestamp - first = t := ht.symm
        cases hr : dictGet rows0 t with
        | some r0 =>
          show some (applyAll idx first rest t (r0.set i (some m0))) =
              some (applyAll idx first (m0 :: rest) t r0)
          have hred : applyAll idx first (m0 :: rest) t r0 =
              applyAll idx first rest t (r0.set i (some m0)) := by
            show applyAll idx first rest t
                (if m0.timestamp - first = t then
                  match dictGet idx m0.from_ with
                  | some j => r0.set j (some m0)
                  | none => r0
                else r0) = applyAll idx first rest t (r0.set i (some m0))
            rw [if_pos hc, hdg]
          rw [hred]
        | none =>
          have hany : ((m0 :: rest).any fun m => decide (m.timestamp - first = t)) = true := by
            simp [List.any_cons, hc]
          show some (applyAll idx first rest t ((List.replicate width none).set i (some m0))) =
              if ((m0 :: rest).any fun m => decide (m.timestamp - first = t)) = true then
                some (applyAll idx first (m0 :: rest) t (List.replicate width none))
              else none
          rw [if_pos hany]
          have hred : applyAll idx first (m0 :: rest) t (List.replicate width none) =
              applyAll idx first rest t ((List.replicate width none).set i (some m0)) := by
            show applyAll idx first rest t
                (if m0.timestamp - first = t then
                  match dictGet idx m0.from_ with
                  | some j => (List.replicate width none).set j (some m0)
                  | none => List.replicate width none
                else List.replicate width none) =
              applyAll idx first rest t ((List.replicate width none).set i (some m0))
            rw [if_pos hc, hdg]
          rw [hred]
      · rw [if_neg ht] at hstep
        rw [hstep]
        have hc : ¬(m0.timestamp - first = t) := fun hh => ht hh.symm
        cases hr : dictGet rows0 t with
        | some r0 =>
          show some (applyAll idx first rest t r0) =
              some (applyAll idx first (m0 :: rest) t r0)
          have hred : applyAll idx first (m0 :: rest) t r0 = applyAll idx first rest t r0 := by
            show applyAll idx first rest t
                (if m0.timestamp - first = t then
                  match dictGet idx m0.from_ with
                  | some j => r0.set j (some m0)
                  | none => r0
                else r0) = applyAll idx first rest t r0
            rw [if_neg hc]
          rw [hred]
        | none =>
          show (if (rest.any fun m => decide (m.timestamp - first = t)) = true then
                some (applyAll idx first rest t (List.replicate width none))
              else none) =
            if ((m0 :: rest).any fun m => decide (m.timestamp - first = t)) = true then
              some (applyAll idx first (m0 :: rest) t (List.replicate width none))
            else none
          have hanyeq : ((m0 :: rest).any fun m => decide (m.timestamp - first = t)) =
              (rest.any fun m => decide (m.timestamp - first = t)) := by
            simp [List.any_cons, hc]
          rw [hanyeq]
          have hred : applyAll idx first (m0 :: rest) t (List.replicate width none) =
              applyAll idx first rest t (List.replicate width none) := by
            show applyAll idx first rest t
                (if m0.timestamp - first = t then
                  match dictGet idx m0.from_ with
                  | some j => (List.replicate width none).set j (some m0)
                  | none => List.replicate width none
                else List.replicate width none) =
              applyAll idx first rest t (List.replicate width none)
            rw [if_neg hc]
          rw [hred]

theorem applyAll_length (idx : Idx) (first t : Int) :
    ∀ (msgs : List Message) (r : Row), (applyAll idx first msgs t r).length = r.length := by
  intro msgs
  induction msgs with
  | nil => intro r; rfl
  | cons m0 rest ih =>
    intro r
    show (applyAll idx first rest t
        (if m0.timestamp - first = t then
          match dictGet idx m0.from_ with
          | some j => r.set j (some m0)
          | none => r
        else r)).length = r.length
    rw [ih]
    split
    · cases hdg : dictGet idx m0.from_ with
      | some j => exact List.length_set r j (some m0)
      | none => rfl
    · rfl

theorem replicate_getD_none (width i : Nat) :
    (List.replicate width (none : Option Message)).getD i none = none := by
  rw [List.getD_eq_getElem?_getD, List.getElem?_replicate]
  split <;> rfl

theorem applyAll_getD (idx : Idx) (first t : Int) :
    ∀ (msgs : List Message) (r : Row) (i : Nat), i < r.length →
      (applyAll idx first msgs t r).getD i none =
        match lastMatch idx first msgs t i with
        | some m => some m
        | none => r.getD i none := by
  intro msgs
  induction msgs with
  | nil => intro r i _; simp [applyAll, lastMatch]
  | cons m0 rest ih =>
    intro r i hi
    by_cases hc : m0.timestamp - first = t
    · cases hdg : dictGet idx m0.from_ with
      | none =>
        have hstep : applyAll idx first (m0 :: rest) t r = applyAll idx first rest t r := by
          show applyAll idx first rest t
              (if m0.timestamp - first = t then
                match dictGet idx m0.from_ with
                | some j => r.set j (some m0)
                | none => r
              else r) = applyAll idx first rest t r
          rw [if_pos hc, hdg]
        have hcond : ¬(m0.timestamp - first = t ∧ dictGet idx m0.from_ = some i) := by
          rintro ⟨_, h2⟩; rw [hdg] at h2; cases h2
        have hlm : lastMatch idx first (m0 :: rest) t i = lastMatch idx first rest t i := by
          show (match lastMatch idx first rest t i with
            | some m' => some m'
            | none =>
              if m0.timestamp - first = t ∧ dictGet idx m0.from_ = some i
              then some m0 else none) = lastMatch idx first rest t i
          cases lastMatch idx first rest t i with
          | some m' => rfl
          | none => rw [if_neg hcond]
        rw [hstep, hlm, ih r i hi]
      | some j =>
        have hstep : applyAll idx first (m0 :: rest) t r =
            applyAll idx first rest t (r.set j (some m0)) := by
          show applyAll idx first rest t
              (if m0.timestamp - first = t then
                match dictGet idx m0.from_ with
                | some j => r.set j (some m0)
                | none => r
              else r) = applyAll idx first rest t (r.set j (some m0))
          rw [if_pos hc, hdg]
        rw [hstep, ih (r.set j (some m0)) i (by rw [List.length_set]; exact hi)]
        by_cases hj : j = i
        · subst hj
          cases hlm : lastMatch idx first rest t j with
          | some m' =>
            have hlm2 : lastMatch idx first (m0 :: rest) t j = some m' := by
              show (match lastMatch idx first rest t j with
                | some m' => some m'
                | none =>
                  if m0.timestamp - first = t ∧ dictGet idx m0.from_ = some j
                  then some m0 else none) = some m'
              rw [hlm]
            rw [hlm2]
          | none =>
            have hlm2 : lastMatch idx first (m0 :: rest) t j = some m0 := by
              show (match lastMatch idx first rest t j with
                | some m' => some m'
                | none =>
                  if m0.timestamp - first = t ∧ dictGet idx m0.from_ = some j
                  then some m0 else none) = some m0
              rw [hlm, if_pos ⟨hc, hdg⟩]
            rw [hlm2]
            rw [List.getD_eq_getElem?_getD, List.getElem?_set]
            simp [hi]
        · have hcond : ¬(m0.timestamp - first = t ∧ dictGet idx m0.from_ = some i) := by
            rintro ⟨_, h2⟩
            rw [hdg] at h2
            injection h2 with h3
            exact hj h3
          have hlm : lastMatch idx first (m0 :: rest) t i = lastMatch idx first rest t i := by
            show (match lastMatch idx first rest t i with
              | some m' => some m'
              | none =>
                if m0.timestamp - first = t ∧ dictGet idx m0.from_ = some i
                then some m0 else none) = lastMatch idx first rest t i
            cases lastMatch idx first rest t i with
            | some m' => rfl
            | none => rw [if_neg hcond]
          rw [hlm]
          cases lastMatch idx first rest t i with
          | some m' => rfl
          | none =>
            rw [List.getD_eq_getElem?_getD, List.getElem?_set, if_neg hj,
              ← List.getD_eq_getElem?_getD]
    · have hstep : applyAll idx first (m0 :: rest) t r = applyAll idx first rest t r := by
        show applyAll idx first rest t
            (if m0.timestamp - first = t then
              match dictGet idx m0.from_ with
              | some j => r.set j (some m0)
              | none => r
            else r) = applyAll idx first rest t r
        rw [if_neg hc]
      have hcond : ¬(m0.timestamp - first = t ∧ dictGet idx m0.from_ = some i) :=
        fun h => hc h.1
      have hlm : lastMatch idx first (m0 :: rest) t i = lastMatch idx first rest t i := by
        show (match lastMatch idx first rest t i with
          | some m' => some m'
          | none =>
            if m0.timestamp - first = t ∧ dictGet idx m0.from_ = some i
            then some m0 else none) = lastMatch idx first rest t i
        cases lastMatch idx first rest t i with
        | some m' => rfl
        | none => rw [if_neg hcond]
      rw [hstep, hlm, ih r i hi]

theorem lastMatch_mem (idx : Idx) (first : Int) :
    ∀ (msgs : List Message) (t : Int) (i : Nat) (m : Message),
      lastMatch idx first msgs t i = some m →
      m ∈ msgs ∧ m.timestamp - first = t ∧ dictGet idx m.from_ = some i := by
  intro msgs
  induction msgs with
  | nil => intro t i m h; cases h
  | cons m0 rest ih =>
    intro t i m h
    have h' : (match lastMatch idx first rest t i with
      | some m' => some m'
      | none =>
        if m0.timestamp - first = t ∧ dictGet idx m0.from_ = some i
        then some m0 else none) = some m := h
    cases hlm : lastMatch idx first rest t i with
    | some m' =>
      rw [hlm] at h'
      injection h' with h2
      obtain ⟨h1, h3, h4⟩ := ih t i m' hlm
      rw [← h2]
      exact ⟨List.mem_cons_of_mem _ h1, h3, h4⟩
    | none =>
      rw [hlm] at h'
      by_cases hcond : m0.timestamp - first = t ∧ dictGet idx m0.from_ = some i
      · rw [if_pos hcond] at h'
        injection h' with h2
        rw [← h2]
        exact ⟨List.mem_cons_self _ _, hcond.1, hcond.2⟩
      · rw [if_neg hcond] at h'
        exact Option.noConfusion h'

theorem lastMatch_isSome_self (idx : Idx) (first : Int) :
    ∀ (msgs : List Message) (m : Message) (i : Nat), m ∈ msgs →
      dictGet idx m.from_ = some i →
      (lastMatch idx first msgs (m.timestamp - first) i).isSome = true := by
  intro msgs
  induction msgs with
  | nil => intro m i hm _; cases hm
  | cons m0 rest ih =>
    intro m i hm hdg
    show (match lastMatch idx first rest (m.timestamp - first) i with
      | some m' => some m'
      | none =>
        if m0.timestamp - first = m.timestamp - first ∧ dictGet idx m0.from_ = some i
        then some m0 else none).isSome = true
    cases hlm : lastMatch idx first rest (m.timestamp - first) i with
    | some m' => rfl
    | none =>
      rcases List.mem_cons.mp hm with rfl | hm'
      · rw [if_pos ⟨rfl, hdg⟩]; rfl
      · have hsome := ih m i hm' hdg
        rw [hlm] at hsome
        cases hsome

/-- C4: when alignment succeeds, the timeline matrix has pairwise-distinct
row keys and full-width rows; every input message's slot (relative
timestamp, worker column) exists and holds the last input message mapped to
that slot (last write wins); every occupied slot holds an input message
whose relative timestamp and worker column are exactly that slot's; and no
message occupies two different slots. -/
theorem c4_alignment (idx : Idx) (width : Nat) (first : Int) (msgs : List Message)
    (rows : List (Int × Row))
    (hb : buildRows idx width first msgs [] = some rows)
    (hw : ∀ p ∈ idx, p.2 < width) :
    (rows.map Prod.fst).Nodup ∧
    (∀ p ∈ rows, p.2.length = width) ∧
    (∀ m ∈ msgs, ∃ i, dictGet idx m.from_ = some i ∧
      ∃ r, dictGet rows (m.timestamp - first) = some r ∧
        r.getD i none = lastMatch idx first msgs (m.timestamp - first) i ∧
        (lastMatch idx first msgs (m.timestamp - first) i).isSome = true) ∧
    (∀ t r, (t, r) ∈ rows → ∀ i m, r.getD i none = some m →
      m ∈ msgs ∧ m.timestamp - first = t ∧ dictGet idx m.from_ = some i) ∧
    (∀ t r t' r' i i' m, (t, r) ∈ rows → (t', r') ∈ rows →
      r.getD i none = some m → r'.getD i' none = some m → t = t' ∧ i = i') := by
  have hnodup : (rows.map Prod.fst).Nodup :=
    buildRows_nodup_keys idx width first msgs [] rows hb List.nodup_nil
  have hchar : ∀ t, dictGet rows t =
      if (msgs.any fun m => decide (m.timestamp - first = t)) = true then
        some (applyAll idx first msgs t (List.replicate width none))
      else none := fun t => buildRows_dictGet idx width first msgs [] rows hb t
  have hrowlen : ∀ p ∈ rows, p.2.length = width := by
    intro p hp
    obtain ⟨t, r⟩ := p
    have hget : dictGet rows t = some r := dictGet_eq_some_of_mem rows t r hp hnodup
    rw [hchar t] at hget
    split at hget
    · injection hget with h2
      rw [← h2]
      show (applyAll idx first msgs t (List.replicate width none)).length = width
      rw [applyAll_length, List.length_replicate]
    · exact Option.noConfusion hget
  have hmem_slot : ∀ t r, (t, r) ∈ rows → ∀ i m, r.getD i none = some m →
      m ∈ msgs ∧ m.timestamp - first = t ∧ dictGet idx m.from_ = some i := by
    intro t r hp i m hslot
    have hget : dictGet rows t = some r := dictGet_eq_some_of_mem rows t r hp hnodup
    rw [hchar t] at hget
    split at hget
    · injection hget with h2
      rw [← h2] at hslot
      by_cases hi : i < width
      · have hgd := applyAll_getD idx first t msgs (List.replicate width none) i
          (by rw [List.length_replicate]; exact hi)
        rw [hgd] at hslot
        cases hlm : lastMatch idx first msgs t i with
        | some m' =>
          rw [hlm] at hslot
          injection hslot with h3
          obtain ⟨ha, hb2, hc2⟩ := lastMatch_mem idx first msgs t i m' hlm
          rw [← h3]
          exact ⟨ha, hb2, hc2⟩
        | none =>
          rw [hlm, replicate_getD_none] at hslot
          exact Option.noConfusion hslot
      · have hlen : (applyAll idx first msgs t (List.replicate width none)).length = width := by
          rw [applyAll_length, List.length_replicate]
        rw [List.getD_eq_default] at hslot
        · exact Option.noConfusion hslot
        · rw [hlen]; omega
    · exact Option.noConfusion hget
  have hplace : ∀ m ∈ msgs, ∃ i, dictGet idx m.from_ = some i ∧
      ∃ r, dictGet rows (m.timestamp - first) = some r ∧
        r.getD i none = lastMatch idx first msgs (m.timestamp - first) i ∧
        (lastMatch idx first msgs (m.timestamp - first) i).isSome = true := by
    intro m hm
    have hsome := buildRows_lookup_isSome idx width first msgs [] rows hb m hm
    obtain ⟨i, hdg⟩ := Option.isSome_iff_exists.mp hsome
    refine ⟨i, hdg, ?_⟩
    have hany : (msgs.any fun m' => decide (m'.timestamp - first = m.timestamp - first)) =
        true := List.any_eq_true.mpr ⟨m, hm, by simp⟩
    have hget : dictGet rows (m.timestamp - first) =
        some (applyAll idx first msgs (m.timestamp - first) (List.replicate width none)) := by
      rw [hchar _, if_pos hany]
    have hi : i < width := hw (m.from_, i) (dictGet_mem idx m.from_ i hdg)
    have hsm := lastMatch_isSome_self idx first msgs m i hm hdg
    refine ⟨_, hget, ?_, hsm⟩
    have hgd := applyAll_getD idx first (m.timestamp - first) msgs
      (List.replicate width none) i (by rw [List.length_replicate]; exact hi)
    rw [hgd]
    cases hlm : lastMatch idx first msgs (m.timestamp - first) i with
    | some m' => rfl
    | none => rw [hlm] at hsm; exact Bool.noConfusion hsm
  refine ⟨hnodup, hrowlen, hplace, hmem_slot, ?_⟩
  intro t r t' r' i i' m hp hp' hs hs'
  obtain ⟨_, h2, h3⟩ := hmem_slot t r hp i m hs
  obtain ⟨_, h2', h3'⟩ := hmem_slot t' r' hp' i' m hs'
  refine ⟨by rw [← h2, ← h2'], ?_⟩
  exact Option.some.inj (h3.symm.trans h3')

/-- C4 witness: a two-message log aligned into two slots. -/
theorem c4_witness :
    buildRows (index_dict ["B0", "B1"]) 2 100 [c1_m1, c1_m2] [] =
        some [((0 : Int), ([some c1_m1, none] : Row)), (5, [none, some c1_m2])] ∧
      (∀ p ∈ index_dict ["B0", "B1"], p.2 < 2) ∧
      (([((0 : Int), ([some c1_m1, none] : Row)), (5, [none, some c1_m2])].map
        Prod.fst).Nodup) :=
  ⟨rfl, by decide,
    (c4_alignment (index_dict ["B0", "B1"]) 2 100 [c1_m1, c1_m2] _ rfl (by decide)).1⟩

theorem buildRows_none_of_missing (idx : Idx) (width : Nat) (first : Int) :
    ∀ (msgs : List Message) (rows0 : List (Int × Row)) (m : Message), m ∈ msgs →
      dictGet idx m.from_ = none → buildRows idx width first msgs rows0 = none := by
  intro msgs
  induction msgs with
  | nil => intro rows0 m hm; cases hm
  | cons m0 rest ih =>
    intro rows0 m hm hdg
    cases hdg0 : dictGet idx m0.from_ with
    | none => simp [buildRows, hdg0]
    | some i =>
      rcases List.mem_cons.mp hm with rfl | hm'
      · rw [hdg0] at hdg; exact Option.noConfusion hdg
      · simp only [buildRows, hdg0]
        exact ih _ m hm' hdg

theorem index_dict_keys (sk : List String) : (index_dict sk).map Prod.fst = sk := by
  unfold index_dict
  rw [List.map_map]
  have : (Prod.fst ∘ fun p : Nat × String => (p.2, p.1)) = Prod.snd := rfl
  rw [this]
  exact List.enum_map_snd sk

theorem index_dict_val_lt (sk : List String) (k : String) (i : Nat)
    (h : dictGet (index_dict sk) k = some i) : i < sk.length := by
  have hmem := dictGet_mem _ _ _ h
  unfold index_dict at hmem
  obtain ⟨p, hp, he⟩ := List.mem_map.mp hmem
  have hp1 : p.1 = i := by
    injection he with h1 h2
  exact hp1 ▸ List.fst_lt_of_mem_enum hp

/-- C6: a message whose `from` worker is not a key of the block-analysis
log is fatal: the timeline-matrix construction (and hence the whole table)
raises (`none`) instead of producing a table. -/
theorem c6_unknown_worker_fatal (msgs : List Message) (bl : BlockLogs) (m : Message)
    (hm : m ∈ msgs) (hf : m.from_ ∉ bl.map Prod.fst) :
    table_rows msgs bl = none ∧ html_dict_to_html_table msgs bl = none := by
  have htr : table_rows msgs bl = none := by
    unfold table_rows
    cases hh : msgs.head? with
    | none => rfl
    | some firstMsg =>
      cases hsk : sorted_worker_keys bl with
      | none => rfl
      | some sk =>
        have hperm : sk.Perm (bl.map Prod.fst) := by
          unfold sorted_worker_keys sortKeys at hsk
          split at hsk
          · injection hsk with h2
            rw [← h2]
            exact List.perm_insertionSort _ _
          · exact Option.noConfusion hsk
        have hnot : m.from_ ∉ sk := fun hmem => hf (hperm.mem_iff.mp hmem)
        have hdg : dictGet (index_dict sk) m.from_ = none := by
          apply dictGet_none_of_not_mem
          rw [index_dict_keys]
          exact hnot
        exact buildRows_none_of_missing _ _ _ msgs [] m hm hdg
  refine ⟨htr, ?_⟩
  unfold html_dict_to_html_table
  cases hsk : sorted_worker_keys bl with
  | none => rfl
  | some sk => rw [htr]

/-- C6 witness: a message from unknown worker `B9` against the scenario
log. -/
theorem c6_witness :
    c6_msg ∈ [c6_msg] ∧ c6_msg.from_ ∉ c3_logs.map Prod.fst ∧
      html_dict_to_html_table [c6_msg] c3_logs = none :=
  ⟨List.mem_singleton.mpr rfl, by decide,
    (c6_unknown_worker_fatal [c6_msg] c3_logs c6_msg (List.mem_singleton.mpr rfl)
      (by decide)).2⟩

theorem strLe_total : ∀ a b : List Char, strLe a b = true ∨ strLe b a = true := by
  intro a
  induction a with
  | nil => intro b; exact Or.inl rfl
  | cons c a ih =>
    intro b
    cases b with
    | nil => exact Or.inr rfl
    | cons d b =>
      by_cases h : c = d
      · subst h
        have h1 : strLe (c :: a) (c :: b) = strLe a b := by simp [strLe]
        have h2 : strLe (c :: b) (c :: a) = strLe b a := by simp [strLe]
        rw [h1, h2]
        exact ih b
      · have h1 : strLe (c :: a) (d :: b) = decide (c < d) := by simp [strLe, h]
        have h2 : strLe (d :: b) (c :: a) = decide (d < c) := by simp [strLe, Ne.symm h]
        rw [h1, h2]
        rcases lt_or_gt_of_ne h with hlt | hgt
        · exact Or.inl (decide_eq_true hlt)
        · exact Or.inr (decide_eq_true hgt)

theorem strLe_trans : ∀ a b c : List Char,
    strLe a b = true → strLe b c = true → strLe a c = true := by
  intro a
  induction a with
  | nil => intro b c _ _; rfl
  | cons x a ih =>
    intro b c hab hbc
    cases b with
    | nil => exact absurd hab (by simp [strLe])
    | cons y b =>
      cases c with
      | nil => exact absurd hbc (by simp [strLe])
      | cons z c =>
        by_cases hxy : x = y
        · subst hxy
          rw [show strLe (x :: a) (x :: b) = strLe a b from by simp [strLe]] at hab
          by_cases hyz : x = z
          · subst hyz
            rw [show strLe (x :: b) (x :: c) = strLe b c from by simp [strLe]] at hbc
            rw [show strLe (x :: a) (x :: c) = strLe a c from by simp [strLe]]
            exact ih b c hab hbc
          · rw [show strLe (x :: b) (z :: c) = decide (x < z) from by simp [strLe, hyz]] at hbc
            rw [show strLe (x :: a) (z :: c) = decide (x < z) from by simp [strLe, hyz]]
            exact hbc
        · rw [show strLe (x :: a) (y :: b) = decide (x < y) from by simp [strLe, hxy]] at hab
          have hxylt : x < y := of_decide_eq_true hab
          by_cases hyz : y = z
          · subst hyz
            rw [show strLe (x :: a) (y :: c) = decide (x < y) from by simp [strLe, hxy]]
            exact decide_eq_true hxylt
          · rw [show strLe (y :: b) (z :: c) = decide (y < z) from by simp [strLe, hyz]] at hbc
            have hyzlt : y < z := of_decide_eq_true hbc
            have hxz : x < z := lt_trans hxylt hyzlt
            rw [show strLe (x :: a) (z :: c) = decide (x < z) from by
              simp [strLe, ne_of_lt hxz]]
            exact decide_eq_true hxz

theorem message_le_total (a b : Message) : message_le a b ∨ message_le b a := by
  unfold message_le
  rcases lt_trichotomy a.timestamp b.timestamp with h | h | h
  · exact Or.inl (Or.inl h)
  · rcases strLe_total (a.from_.drop 1).data (b.from_.drop 1).data with hs | hs
    · exact Or.inl (Or.inr ⟨h, hs⟩)
    · exact Or.inr (Or.inr ⟨h.symm, hs⟩)
  · exact Or.inr (Or.inl h)

theorem message_le_trans (a b c : Message) (hab : message_le a b) (hbc : message_le b c) :
    message_le a c := by
  unfold message_le at hab hbc ⊢
  rcases hab with h1 | ⟨h1, hs1⟩
  · rcases hbc with h2 | ⟨h2, _⟩
    · exact Or.inl (lt_trans h1 h2)
    · exact Or.inl (lt_of_lt_of_le h1 (le_of_eq h2))
  · rcases hbc with h2 | ⟨h2, hs2⟩
    · exact Or.inl (lt_of_le_of_lt (le_of_eq h1) h2)
    · exact Or.inr ⟨h1.trans h2, strLe_trans _ _ _ hs1 hs2⟩

theorem sort_messages_pairwise (msgs : List Message) :
    (sort_messages msgs).Pairwise message_le := by
  unfold sort_messages
  haveI : IsTotal Message message_le := ⟨message_le_total⟩
  haveI : IsTrans Message message_le := ⟨message_le_trans⟩
  exact List.sorted_insertionSort message_le msgs

theorem sort_messages_rel_mono (msgs : List Message) (first : Int) :
    ((sort_messages msgs).map (fun m => m.timestamp - first)).Pairwise (· ≤ ·) := by
  rw [List.pairwise_map]
  refine (sort_messages_pairwise msgs).imp ?_
  intro a b hab
  rcases hab with hlt | ⟨heq, _⟩
  · omega
  · omega

theorem buildRows_keys_sorted (idx : Idx) (width : Nat) (first : Int) :
    ∀ (msgs : List Message) (rows0 rows : List (Int × Row)),
      buildRows idx width first msgs rows0 = some rows →
      (rows0.map Prod.fst).Pairwise (· < ·) →
      (∀ k ∈ rows0.map Prod.fst, ∀ m ∈ msgs, k ≤ m.timestamp - first) →
      (msgs.map (fun m => m.timestamp - first)).Pairwise (· ≤ ·) →
      (rows.map Prod.fst).Pairwise (· < ·) := by
  intro msgs
  induction msgs with
  | nil => intro rows0 rows h hp _ _; cases h; exact hp
  | cons m0 rest ih =>
    intro rows0 rows h hp hub hmono
    cases hdg : dictGet idx m0.from_ with
    | none =>
      simp only [buildRows, hdg] at h
      exact Option.noConfusion h
    | some i =>
      simp only [buildRows, hdg] at h
      rw [List.map_cons, List.pairwise_cons] at hmono
      refine ih (insertMessage rows0 (m0.timestamp - first) width i m0) rows h ?_ ?_ hmono.2
      · rw [keys_insertMessage]
        split
        · exact hp
        · next hnot =>
          rw [List.pairwise_append]
          refine ⟨hp, List.pairwise_singleton _ _, ?_⟩
          intro a ha b hb
          rw [List.mem_singleton] at hb
          subst hb
          have hle : a ≤ m0.timestamp - first := hub a ha m0 (List.mem_cons_self _ _)
          have hne : a ≠ m0.timestamp - first := fun he => hnot (he ▸ ha)
          exact lt_of_le_of_ne hle hne
      · intro k hk m' hm'
        rw [keys_insertMessage] at hk
        have hfromold : k ∈ rows0.map Prod.fst → k ≤ m'.timestamp - first :=
          fun hmem => hub k hmem m' (List.mem_cons_of_mem _ hm')
        have hnewcase : k = m0.timestamp - first → k ≤ m'.timestamp - first := by
          intro hke
          subst hke
          exact hmono.1 _ (List.mem_map.mpr ⟨m', hm', rfl⟩)
        split at hk
        · exact hfromold hk
        · rcases List.mem_append.mp hk with hmem | hmem
          · exact hfromold hmem
          · exact hnewcase (List.mem_singleton.mp hmem)

/-- C1: for every input message list, the pipeline of `main` — which sorts
the messages by (timestamp, identifier-suffix) before building the table —
produces a timeline matrix whose row keys, in the emission (dict insertion)
order the renderer iterates, are strictly increasing: a row emitted earlier
has a strictly smaller relative timestamp. -/
theorem c1_rows_ascending (msgs : List Message) (bl : BlockLogs)
    (rows : List (Int × Row))
    (h : table_rows (sort_messages msgs) bl = some rows) :
    (rows.map Prod.fst).Pairwise (· < ·) := by
  unfold table_rows at h
  cases hh : (sort_messages msgs).head? with
  | none => rw [hh] at h; exact Option.noConfusion h
  | some firstMsg =>
    rw [hh] at h
    cases hsk : sorted_worker_keys bl with
    | none => rw [hsk] at h; exact Option.noConfusion h
    | some sk =>
      rw [hsk] at h
      exact buildRows_keys_sorted (index_dict sk) bl.length firstMsg.timestamp
        (sort_messages msgs) [] rows h List.Pairwise.nil
        (by intro k hk m hm; simp at hk)
        (sort_messages_rel_mono msgs firstMsg.timestamp)

/-- C1 witness: two unsorted input messages; the pipeline sorts them and
emits rows with keys 0 then 5. -/
theorem c1_witness :
    table_rows (sort_messages [c1_m2, c1_m1]) c3_logs =
        some [((0 : Int), ([some c1_m1, none] : Row)), (5, [none, some c1_m2])] ∧
      (([((0 : Int), ([some c1_m1, none] : Row)), (5, [none, some c1_m2])].map
        Prod.fst).Pairwise (· < ·)) :=
  ⟨rfl, c1_rows_ascending [c1_m2, c1_m1] c3_logs _ rfl⟩
